import Mathlib

/-!
Verification of the "open-in-github-simple" editor extension.

The development shallowly embeds the two source modules:

* `src/git.ts` — `normalizeGitHubUrl`, `buildGitHubUrl`, `getGitRootPath`,
  `getRemoteUrl`, `getCurrentBranch`, `getRepoInfo`.  The shell invocations
  of the git command-line tool are modelled by a `GitEnv` record holding, for
  each of the commands the module runs, the trimmed standard output the tool
  would produce (`Except.ok`) or a failure (`Except.error`).
* `src/extension.ts` — the `openInGithub` command handler, modelled over a
  `HostEnv` record describing the host editor state and the outcome of the
  `openExternal` call.

Strings are modelled by Lean `String` (a list of characters); JavaScript
`null` results are `Option.none`; exceptions are `Except.error`.
Node's `path.relative` (POSIX flavour, for the absolute paths the extension
works with: the editor's absolute file path and the absolute repository root
reported by git) is embedded segment-wise by `pathRelative` below.
-/

namespace OIG

/-! ### Model of Node `path.posix` for absolute inputs -/

/-- Split a character list on `'/'` (all pieces, empty pieces included),
mirroring how `path.posix` tokenises a path string. -/
def splitSegs : List Char → List (List Char)
  | [] => [[]]
  | c :: cs =>
    if c = '/' then [] :: splitSegs cs
    else
      match splitSegs cs with
      | [] => [[c]]
      | s :: rest => (c :: s) :: rest

/-- The non-empty segments of a path (duplicate and boundary slashes are
dropped, as `path.posix.resolve` does). -/
def segsOf (l : List Char) : List (List Char) :=
  (splitSegs l).filter (fun s => !s.isEmpty)

/-- One step of `path.posix.resolve` segment normalisation: `"."` is
skipped, `".."` pops the last segment (a no-op at the root), anything else
is appended. -/
def resolveStep (acc : List (List Char)) (s : List Char) : List (List Char) :=
  if s = ['.'] then acc
  else if s = ['.', '.'] then acc.dropLast
  else acc ++ [s]

/-- Segment normalisation of an absolute path, as `path.posix.resolve`
performs on an already-absolute input. -/
def resolveSegs (segs : List (List Char)) : List (List Char) :=
  segs.foldl resolveStep []

/-- Drop the common leading segments of two segment lists, returning the two
remainders — the core of `path.posix.relative`. -/
def dropCommon : List (List Char) → List (List Char) → List (List Char) × List (List Char)
  | a :: as, b :: bs => if a = b then dropCommon as bs else (a :: as, b :: bs)
  | as, bs => (as, bs)

/-- Join segments with `'/'`. -/
def joinSegs : List (List Char) → List Char
  | [] => []
  | [s] => s
  | s :: t :: rest => s ++ '/' :: joinSegs (t :: rest)

/-- Node `path.posix.relative` for absolute `from`/`to` inputs: normalise
both, drop the common root, emit `".."` for every remaining `from` segment
followed by the remaining `to` segments. -/
def pathRelative (f t : String) : String :=
  let fs := resolveSegs (segsOf f.data)
  let ts := resolveSegs (segsOf t.data)
  let p := dropCommon fs ts
  String.mk (joinSegs (p.1.map (fun _ => ['.', '.']) ++ p.2))

/-! ### `src/git.ts` -/

/-- `RepoInfo` from `src/git.ts`. -/
structure RepoInfo where
  remoteUrl : String
  branch : String
  rootPath : String
deriving DecidableEq, Repr

/-- `normalizeGitHubUrl` from `src/git.ts`.
`remoteUrl.startsWith(p)` is `p.data <+: remoteUrl.data`,
`remoteUrl.includes(s)` is `s.data <:+: remoteUrl.data`,
`s.endsWith(q)` is `q.data <:+ s.data`, `slice(0, -4)` is
`take (length - 4)`, and `slice(n)` is `drop n`. -/
def normalizeGitHubUrl (remoteUrl : String) : Option String :=
  if "git@github.com:".data <+: remoteUrl.data then
    let sshPath := remoteUrl.data.drop ("git@github.com:".length)
    let repoPath := if ".git".data <:+ sshPath then sshPath.take (sshPath.length - 4) else sshPath
    some ("https://github.com/" ++ String.mk repoPath)
  else if "github.com".data <:+: remoteUrl.data then
    some (if ".git".data <:+ remoteUrl.data then
            String.mk (remoteUrl.data.take (remoteUrl.data.length - 4))
          else remoteUrl)
  else none

/-- `buildGitHubUrl` from `src/git.ts`.  The `filePath` argument is an
`Option` because the function's `try`/`catch` turns the `TypeError` that
`path.relative` throws on a non-string (`null`) argument into a `null`
result.  The JavaScript truthiness test `endLineNumber &&
endLineNumber !== startLineNumber` holds exactly when the optional argument
is present, non-zero and different from the start line. -/
def buildGitHubUrl (repoInfo : RepoInfo) (filePath : Option String)
    (startLineNumber : Int) (endLineNumber : Option Int) : Option String :=
  match filePath with
  | none => none
  | some fp =>
    let relativePath :=
      String.mk ((pathRelative repoInfo.rootPath fp).data.map
        (fun c => if c = '\\' then '/' else c))
    match endLineNumber with
    | some e =>
      if e ≠ 0 ∧ e ≠ startLineNumber then
        some (repoInfo.remoteUrl ++ "/blob/" ++ repoInfo.branch ++ "/" ++ relativePath ++
          "#L" ++ toString startLineNumber ++ "-L" ++ toString e)
      else
        some (repoInfo.remoteUrl ++ "/blob/" ++ repoInfo.branch ++ "/" ++ relativePath ++
          "#L" ++ toString startLineNumber)
    | none =>
      some (repoInfo.remoteUrl ++ "/blob/" ++ repoInfo.branch ++ "/" ++ relativePath ++
        "#L" ++ toString startLineNumber)

/-- Outcomes of the git commands `src/git.ts` runs through
`executeCommand` (trimmed stdout on success, rejection on failure). -/
structure GitEnv where
  revParseShowToplevel : Except String String
  configGetRemoteOriginUrl : Except String String
  revParseHead : Except String String
  revParseAbbrevRefHead : Except String String
  symbolicRefShortHead : Except String String
deriving Repr

/-- `getGitRootPath` from `src/git.ts`: the trimmed output of
`git rev-parse --show-toplevel`, or `null` on failure. -/
def getGitRootPath (env : GitEnv) : Option String :=
  match env.revParseShowToplevel with
  | .ok s => some s
  | .error _ => none

/-- `getRemoteUrl` from `src/git.ts`: reads `remote.origin.url` and
normalizes it; `null` when the command fails. -/
def getRemoteUrl (env : GitEnv) : Option String :=
  match env.configGetRemoteOriginUrl with
  | .ok raw => normalizeGitHubUrl raw
  | .error _ => none

/-- `getCurrentBranch` from `src/git.ts`: if `git rev-parse HEAD` fails
the repository has no commits and the symbolic ref short name (or the
literal `"main"`) is returned; otherwise the abbreviated ref is used, with
the full commit hash substituted in the detached-HEAD case; any failure in
that second phase is caught by the outer handler and yields `null`. -/
def getCurrentBranch (env : GitEnv) : Option String :=
  match env.revParseHead with
  | .error _ =>
    match env.symbolicRefShortHead with
    | .ok s => some s
    | .error _ => some "main"
  | .ok _ =>
    match env.revParseAbbrevRefHead with
    | .error _ => none
    | .ok branch =>
      if branch = "HEAD" then
        match env.revParseHead with
        | .ok c => some c
        | .error _ => none
      else some branch

/-- `getRepoInfo` from `src/git.ts`.  Each falsy intermediate result
(`null` or the empty string) raises an error that the surrounding `catch`
turns into a `null` result. -/
def getRepoInfo (env : GitEnv) : Option RepoInfo :=
  match getGitRootPath env with
  | none => none
  | some rootPath =>
    if rootPath = "" then none
    else
      match getRemoteUrl env with
      | none => none
      | some remoteUrl =>
        if remoteUrl = "" then none
        else
          match getCurrentBranch env with
          | none => none
          | some branch =>
            if branch = "" then none
            else some { remoteUrl := remoteUrl, branch := branch, rootPath := rootPath }

/-! ### `src/extension.ts` -/

/-- The active editor's selection: 0-based start and end lines and the
`isEmpty` flag of the VS Code selection object. -/
structure Selection where
  startLine : Int
  endLine : Int
  isEmptySel : Bool
deriving DecidableEq, Repr

/-- The active editor as the handler reads it.  The two property reads the
handler performs (`editor.document.uri.fsPath` and `editor.selection`) are
host-API getters and are modelled as fallible, since the claims quantify
over exceptions raised while reading editor state. -/
structure EditorState where
  fsPath : Except String String
  selection : Except String Selection
deriving Repr

/-- The host world an invocation of the command handler runs against. -/
structure HostEnv where
  editor : Option EditorState
  git : GitEnv
  openExternal : String → Except String Unit

/-- Observable outcome of one run of the command handler. -/
inductive HandlerOutcome where
  | errorShown : String → HandlerOutcome
  | opened : String → HandlerOutcome
  | escaped : String → HandlerOutcome
deriving DecidableEq, Repr

/-- Whether an outcome is an exception escaping the handler. -/
def HandlerOutcome.isEscaped : HandlerOutcome → Bool
  | .escaped _ => true
  | _ => false

/-- The `open-in-github-simple.openInGithub` command callback from
`src/extension.ts`.  The editor lookup, the two editor-state reads and the
line arithmetic happen before the `try` block; the `try` covers
`getRepoInfo`, `buildGitHubUrl` and `openExternal`, and its `catch` shows
`Error: <description>`. -/
def openInGithubHandler (host : HostEnv) : HandlerOutcome :=
  match host.editor with
  | none => .errorShown "No active editor found"
  | some ed =>
    match ed.fsPath with
    | .error e => .escaped e
    | .ok filePath =>
      match ed.selection with
      | .error e => .escaped e
      | .ok sel =>
        let startLine := sel.startLine + 1
        let endLine := sel.endLine + 1
        match getRepoInfo host.git with
        | none => .errorShown "Could not determine GitHub repository information"
        | some repoInfo =>
          let githubUrl :=
            if sel.isEmptySel = false ∧ startLine ≠ endLine then
              buildGitHubUrl repoInfo (some filePath) startLine (some endLine)
            else
              buildGitHubUrl repoInfo (some filePath) startLine none
          match githubUrl with
          | none => .errorShown "Failed to build GitHub URL"
          | some url =>
            match host.openExternal url with
            | .error e => .errorShown ("Error: " ++ e)
            | .ok _ => .opened url

/-- Host (authority) component of a URL per generic URI syntax: the text
between `"://"` and the following `'/'`.  This is not part of the source;
it only serves to state claims that speak about a remote URL's host. -/
def dropThroughSep : List Char → List Char
  | ':' :: '/' :: '/' :: rest => rest
  | _ :: cs => dropThroughSep cs
  | [] => []

/-- The characters before the first `'/'`. -/
def takeUntilSlash : List Char → List Char
  | [] => []
  | c :: cs => if c = '/' then [] else c :: takeUntilSlash cs

/-- Host component of a URL (see `dropThroughSep`). -/
def urlHost (u : String) : String :=
  String.mk (takeUntilSlash (dropThroughSep u.data))

/-! ### Helper lemmas -/

/-- With a present file path, every branch of `buildGitHubUrl` produces a
URL. -/
theorem buildGitHubUrl_isSome (ri : RepoInfo) (fp : String) (s : Int) (e : Option Int) :
    (buildGitHubUrl ri (some fp) s e).isSome = true := by
  unfold buildGitHubUrl
  cases e with
  | none => rfl
  | some x =>
    dsimp only
    split <;> rfl

/-- `splitSegs` never returns the empty list. -/
theorem splitSegs_ne_nil (l : List Char) : splitSegs l ≠ [] := by
  cases l with
  | nil => simp [splitSegs]
  | cons c cs =>
    simp only [splitSegs]
    split
    · simp
    · rcases h : splitSegs cs with _ | ⟨s, rest⟩ <;> simp [h]

/-- Equation of `splitSegs` at a leading slash. -/
theorem splitSegs_cons_slash (cs : List Char) :
    splitSegs ('/' :: cs) = [] :: splitSegs cs := by
  conv_lhs => unfold splitSegs
  rw [if_pos rfl]

/-- Equation of `splitSegs` at a leading non-slash character. -/
theorem splitSegs_cons_ne (c : Char) (cs : List Char) (hc : c ≠ '/')
    (s : List Char) (rest : List (List Char)) (h : splitSegs cs = s :: rest) :
    splitSegs (c :: cs) = (c :: s) :: rest := by
  conv_lhs => unfold splitSegs
  rw [if_neg hc, h]

/-- Splitting distributes over a slash-separated concatenation. -/
theorem splitSegs_append (a b : List Char) :
    splitSegs (a ++ '/' :: b) = splitSegs a ++ splitSegs b := by
  induction a with
  | nil =>
    rw [List.nil_append, splitSegs_cons_slash]
    rfl
  | cons c cs ih =>
    rw [List.cons_append]
    by_cases hc : c = '/'
    · subst hc
      rw [splitSegs_cons_slash, splitSegs_cons_slash, ih, List.cons_append]
    · rcases h : splitSegs cs with _ | ⟨s, rest⟩
      · exact absurd h (splitSegs_ne_nil cs)
      · have h2 : splitSegs (cs ++ '/' :: b) = s :: (rest ++ splitSegs b) := by
          rw [ih, h, List.cons_append]
        rw [splitSegs_cons_ne c _ hc _ _ h2, splitSegs_cons_ne c _ hc _ _ h,
          List.cons_append]

/-- Joining the split of a character list restores it. -/
theorem joinSegs_splitSegs (l : List Char) : joinSegs (splitSegs l) = l := by
  induction l with
  | nil => rfl
  | cons c cs ih =>
    by_cases hc : c = '/'
    · subst hc
      rw [splitSegs_cons_slash]
      rcases h : splitSegs cs with _ | ⟨s, rest⟩
      · exact absurd h (splitSegs_ne_nil cs)
      · rw [h] at ih
        show ([] : List Char) ++ '/' :: joinSegs (s :: rest) = '/' :: cs
        rw [List.nil_append, ih]
    · rcases h : splitSegs cs with _ | ⟨s, rest⟩
      · exact absurd h (splitSegs_ne_nil cs)
      · rw [splitSegs_cons_ne c cs hc s rest h]
        rw [h] at ih
        cases rest with
        | nil =>
          have ihs : s = cs := ih
          show c :: s = c :: cs
          exact congrArg (fun x => c :: x) ihs
        | cons t r =>
          have ih2 : s ++ '/' :: joinSegs (t :: r) = cs := ih
          show (c :: s) ++ '/' :: joinSegs (t :: r) = c :: cs
          rw [List.cons_append, ih2]

/-- On dot-free segments, the resolve fold only appends. -/
theorem foldl_resolveStep (segs : List (List Char)) (acc : List (List Char))
    (h : ∀ s ∈ segs, s ≠ ['.'] ∧ s ≠ ['.', '.']) :
    segs.foldl resolveStep acc = acc ++ segs := by
  induction segs generalizing acc with
  | nil => simp
  | cons s ss ih =>
    have hs := h s (List.mem_cons_self s ss)
    have hstep : resolveStep acc s = acc ++ [s] := by
      unfold resolveStep
      rw [if_neg hs.1, if_neg hs.2]
    simp only [List.foldl_cons, hstep]
    rw [ih (acc ++ [s]) (fun t ht => h t (List.mem_cons_of_mem s ht))]
    simp

/-- Dot-free segment lists are already resolved. -/
theorem resolveSegs_eq_self (segs : List (List Char))
    (h : ∀ s ∈ segs, s ≠ ['.'] ∧ s ≠ ['.', '.']) :
    resolveSegs segs = segs := by
  unfold resolveSegs
  rw [foldl_resolveStep segs [] h]
  simp

/-- Dropping the common part of a list and an extension of it leaves
exactly the extension. -/
theorem dropCommon_append (a b : List (List Char)) :
    dropCommon a (a ++ b) = ([], b) := by
  induction a with
  | nil => cases b <;> rfl
  | cons x xs ih =>
    simp only [List.cons_append, dropCommon, if_pos rfl]
    exact ih

/-- `segsOf` distributes over a slash-separated concatenation. -/
theorem segsOf_append_slash (a b : List Char) :
    segsOf (a ++ '/' :: b) = segsOf a ++ segsOf b := by
  unfold segsOf
  rw [splitSegs_append, List.filter_append]

/-- When no raw segment is empty, filtering keeps the whole split. -/
theorem segsOf_eq_splitSegs (l : List Char) (h : ∀ s ∈ splitSegs l, s ≠ []) :
    segsOf l = splitSegs l := by
  unfold segsOf
  rw [List.filter_eq_self.mpr]
  intro s hs
  rcases hsn : s with _ | ⟨c, cs⟩
  · exact absurd hsn (h s hs)
  · rfl

/-- For a file that lies under the repository root — the root with a clean
relative remainder appended — the embedded `path.relative` returns exactly
that remainder. -/
theorem pathRelative_under (root rel : String)
    (hroot : ∀ s ∈ segsOf root.data, s ≠ ['.'] ∧ s ≠ ['.', '.'])
    (hrel : ∀ s ∈ splitSegs rel.data, s ≠ [] ∧ s ≠ ['.'] ∧ s ≠ ['.', '.']) :
    pathRelative root (root ++ "/" ++ rel) = rel := by
  have hdata : (root ++ "/" ++ rel).data = root.data ++ '/' :: rel.data := by
    rw [String.data_append, String.data_append]
    simp
  unfold pathRelative
  dsimp only
  rw [hdata, segsOf_append_slash,
    segsOf_eq_splitSegs rel.data (fun s hs => (hrel s hs).1),
    resolveSegs_eq_self (segsOf root.data) hroot,
    resolveSegs_eq_self (segsOf root.data ++ splitSegs rel.data) ?side,
    dropCommon_append]
  case side =>
    intro s hs
    rcases List.mem_append.mp hs with h1 | h2
    · exact hroot s h1
    · exact ⟨(hrel s h2).2.1, (hrel s h2).2.2⟩
  simp only [List.map_nil, List.nil_append]
  rw [joinSegs_splitSegs]

/-- A suffix of a concatenation is a suffix of the right part, or is a
suffix of the left part extended by the whole right part. -/
theorem suffix_append_cases (s a b : List Char) (h : s <:+ a ++ b) :
    s <:+ b ∨ ∃ t, t <:+ a ∧ s = t ++ b := by
  induction a with
  | nil =>
    rw [List.nil_append] at h
    exact Or.inl h
  | cons x a' ih =>
    rw [List.cons_append] at h
    rcases List.suffix_cons_iff.mp h with h1 | h2
    · exact Or.inr ⟨x :: a', List.suffix_refl _, by rw [h1, List.cons_append]⟩
    · rcases ih h2 with h3 | ⟨t, ht, hs⟩
      · exact Or.inl h3
      · exact Or.inr ⟨t, ht.trans (List.suffix_cons x a'), hs⟩

/-- Appending the GitHub HTTPS base in front cannot create a `.git` suffix:
no suffix of the base aligns with a prefix of `".git"`. -/
theorem not_git_suffix (l : List Char) (hl : ¬ ".git".data <:+ l) :
    ¬ ".git".data <:+ ("https://github.com/".data ++ l) := by
  intro h
  rcases suffix_append_cases _ _ _ h with h1 | ⟨t, ht, hs⟩
  · exact hl h1
  · have hlen : t.length + l.length = 4 := by
      have h2 := congrArg List.length hs
      rw [List.length_append] at h2
      rw [show (".git".data).length = 4 from rfl] at h2
      omega
    have htake : t = (".git".data).take t.length := by
      rw [hs, List.take_left]
    have hcases : t.length = 0 ∨ t.length = 1 ∨ t.length = 2 ∨ t.length = 3 ∨ t.length = 4 := by
      omega
    rcases hcases with h0 | h1 | h1 | h1 | h1
    · rw [h0, List.take_zero] at htake
      rw [htake, List.nil_append] at hs
      rw [← hs] at hl
      exact hl (List.suffix_refl _)
    all_goals rw [h1] at htake; rw [htake] at ht; exact absurd ht (by decide)

/-- Nothing that starts with the GitHub HTTPS base starts with the SSH
marker. -/
theorem not_ssh_start_https (l : List Char) :
    ¬ "git@github.com:".data <+: ("https://github.com/".data ++ l) := by
  intro h
  obtain ⟨t, ht⟩ := h
  rw [show "git@github.com:".data = 'g' :: "it@github.com:".data from rfl,
    show "https://github.com/".data = 'h' :: "ttps://github.com/".data from rfl,
    List.cons_append, List.cons_append] at ht
  injection ht with h1 h2
  exact absurd h1 (by decide)

/-- Anything starting with the GitHub HTTPS base contains `github.com`. -/
theorem infix_github_https (l : List Char) :
    "github.com".data <:+: ("https://github.com/".data ++ l) := by
  refine ⟨"https://".data, "/".data ++ l, ?_⟩
  rw [show "https://github.com/".data = "https://".data ++ "github.com".data ++ "/".data from rfl]
  simp [List.append_assoc]

/-- Removing a trailing `".git"` never removes an occurrence of
`"github.com"`: no suffix of `"github.com"` aligns with a prefix of
`".git"`, so every occurrence lies inside the truncated part. -/
theorem infix_github_take (u y : List Char) (hu : y ++ ".git".data = u)
    (hinf : "github.com".data <:+: u) : "github.com".data <:+: y := by
  obtain ⟨s, t, hst⟩ := hinf
  by_cases hlen : 4 ≤ t.length
  · have ht_u : t <:+ u := ⟨s ++ "github.com".data, hst⟩
    have hd_u : ".git".data <:+ u := ⟨y, hu⟩
    have hdt : ".git".data <:+ t :=
      List.suffix_of_suffix_length_le hd_u ht_u
        (by rw [show (".git".data).length = 4 from rfl]; omega)
    obtain ⟨t', ht'⟩ := hdt
    refine ⟨s, t', ?_⟩
    have hmain : (s ++ "github.com".data ++ t') ++ ".git".data = y ++ ".git".data := by
      rw [List.append_assoc (s ++ "github.com".data) t' (".git".data), ht', hst, ← hu]
    exact List.append_cancel_right hmain
  · push_neg at hlen
    have ht_u : t <:+ u := ⟨s ++ "github.com".data, hst⟩
    have hd_u : ".git".data <:+ u := ⟨y, hu⟩
    have htd : t <:+ ".git".data :=
      List.suffix_of_suffix_length_le ht_u hd_u
        (by rw [show (".git".data).length = 4 from rfl]; omega)
    obtain ⟨d', hd'⟩ := htd
    have h3 : (s ++ "github.com".data) ++ t = (y ++ d') ++ t := by
      rw [hst, List.append_assoc y d' t, hd', hu]
    have hcan : s ++ "github.com".data = y ++ d' := List.append_cancel_right h3
    have hg_yd : "github.com".data <:+ y ++ d' := ⟨s, hcan⟩
    have hd'_yd : d' <:+ y ++ d' := ⟨y, rfl⟩
    have hlen4 : d'.length + t.length = 4 := by
      have h4 := congrArg List.length hd'
      rw [List.length_append] at h4
      rw [show (".git".data).length = 4 from rfl] at h4
      omega
    have hd'g : d' <:+ "github.com".data :=
      List.suffix_of_suffix_length_le hd'_yd hg_yd
        (by rw [show ("github.com".data).length = 10 from rfl]; omega)
    have hd'take : d' = (".git".data).take d'.length := by
      rw [← hd', List.take_left]
    have hc : d'.length = 1 ∨ d'.length = 2 ∨ d'.length = 3 ∨ d'.length = 4 := by omega
    rcases hc with h1 | h1 | h1 | h1 <;>
      (rw [h1] at hd'take; rw [hd'take] at hd'g; exact absurd hd'g (by decide))

/-- `normalizeGitHubUrl` on the four canonical origin forms yields the
canonical HTTPS origin. -/
theorem normalizeGitHubUrl_canonical (p : String) (hpg : ¬ ".git".data <:+ p.data) :
    normalizeGitHubUrl ("git@github.com:" ++ p) = some ("https://github.com/" ++ p) ∧
    normalizeGitHubUrl ("git@github.com:" ++ p ++ ".git") = some ("https://github.com/" ++ p) ∧
    normalizeGitHubUrl ("https://github.com/" ++ p) = some ("https://github.com/" ++ p) ∧
    normalizeGitHubUrl ("https://github.com/" ++ p ++ ".git") = some ("https://github.com/" ++ p) := by
  refine ⟨?_, ?_, ?_, ?_⟩
  · unfold normalizeGitHubUrl
    rw [if_pos ⟨p.data, (String.data_append _ _).symm⟩]
    dsimp only
    rw [show ("git@github.com:" ++ p).data.drop ("git@github.com:".length) = p.data from by
      rw [String.data_append]; exact List.drop_left _ _]
    rw [if_neg hpg]
  · unfold normalizeGitHubUrl
    rw [if_pos ⟨p.data ++ ".git".data, by
      rw [String.data_append, String.data_append, List.append_assoc]⟩]
    dsimp only
    rw [show ("git@github.com:" ++ p ++ ".git").data.drop ("git@github.com:".length) =
        p.data ++ ".git".data from by
      rw [String.data_append, String.data_append, List.append_assoc]
      exact List.drop_left _ _]
    rw [if_pos ⟨p.data, rfl⟩]
    rw [show (p.data ++ ".git".data).take ((p.data ++ ".git".data).length - 4) = p.data from by
      rw [List.length_append, show (".git".data).length = 4 from rfl, Nat.add_sub_cancel]
      exact List.take_left _ _]
  · unfold normalizeGitHubUrl
    rw [if_neg (by rw [String.data_append]; exact not_ssh_start_https _)]
    rw [if_pos (by rw [String.data_append]; exact infix_github_https _)]
    rw [if_neg (by rw [String.data_append]; exact not_git_suffix _ hpg)]
  · unfold normalizeGitHubUrl
    have hdata : ("https://github.com/" ++ p ++ ".git").data =
        "https://github.com/".data ++ (p.data ++ ".git".data) := by
      rw [String.data_append, String.data_append, List.append_assoc]
    rw [if_neg (by rw [hdata]; exact not_ssh_start_https _)]
    rw [if_pos (by rw [hdata]; exact infix_github_https _)]
    rw [if_pos ⟨("https://github.com/" ++ p).data, (String.data_append _ _).symm⟩]
    rw [show ("https://github.com/" ++ p ++ ".git").data.take
        (("https://github.com/" ++ p ++ ".git").data.length - 4) =
        ("https://github.com/" ++ p).data from by
      rw [String.data_append, List.length_append, show (".git".data).length = 4 from rfl,
        Nat.add_sub_cancel]
      exact List.take_left _ _]

/-- A successful resolver run passes the normalized remote through to
`RepoInfo.remoteUrl`. -/
theorem getRepoInfo_remoteUrl (env : GitEnv) (ri : RepoInfo)
    (h : getRepoInfo env = some ri) : getRemoteUrl env = some ri.remoteUrl := by
  unfold getRepoInfo at h
  cases hgr : getGitRootPath env with
  | none => rw [hgr] at h; exact absurd h (by simp)
  | some rootPath =>
    rw [hgr] at h
    dsimp only at h
    by_cases hrp : rootPath = ""
    · rw [if_pos hrp] at h; exact absurd h (by simp)
    · rw [if_neg hrp] at h
      cases hru2 : getRemoteUrl env with
      | none => rw [hru2] at h; exact absurd h (by simp)
      | some remoteUrl =>
        rw [hru2] at h
        dsimp only at h
        by_cases hre : remoteUrl = ""
        · rw [if_pos hre] at h; exact absurd h (by simp)
        · rw [if_neg hre] at h
          cases hbr : getCurrentBranch env with
          | none => rw [hbr] at h; exact absurd h (by simp)
          | some branch =>
            rw [hbr] at h
            dsimp only at h
            by_cases hbe : branch = ""
            · rw [if_pos hbe] at h; exact absurd h (by simp)
            · rw [if_neg hbe] at h
              have h2 := Option.some.inj h
              subst h2
              rfl

/-! ### Claims -/

/-- C1: for a repository whose root path has clean segments and a file path
lying under that root (root, a slash, then a clean relative remainder),
`buildGitHubUrl` returns
`<remoteUrl>/blob/<branch>/<relativePath><anchor>`, where `relativePath` is
the file's path relative to the root with every backslash replaced by a
forward slash, and the anchor is `#L<start>-L<end>` when a (1-based) end
line is supplied and differs from the start line, and `#L<start>`
otherwise. -/
theorem claim_C1_build_url (ri : RepoInfo) (rel : String) (s : Int) (el : Option Int)
    (hroot : ∀ seg ∈ segsOf ri.rootPath.data, seg ≠ ['.'] ∧ seg ≠ ['.', '.'])
    (hrel : ∀ seg ∈ splitSegs rel.data, seg ≠ [] ∧ seg ≠ ['.'] ∧ seg ≠ ['.', '.'])
    (hel : ∀ e, el = some e → 1 ≤ e) :
    buildGitHubUrl ri (some (ri.rootPath ++ "/" ++ rel)) s el =
      Option.elim el
        (some (ri.remoteUrl ++ "/blob/" ++ ri.branch ++ "/" ++
          String.mk (rel.data.map (fun c => if c = '\\' then '/' else c)) ++
          "#L" ++ toString s))
        (fun e =>
          if e ≠ s then
            some (ri.remoteUrl ++ "/blob/" ++ ri.branch ++ "/" ++
              String.mk (rel.data.map (fun c => if c = '\\' then '/' else c)) ++
              "#L" ++ toString s ++ "-L" ++ toString e)
          else
            some (ri.remoteUrl ++ "/blob/" ++ ri.branch ++ "/" ++
              String.mk (rel.data.map (fun c => if c = '\\' then '/' else c)) ++
              "#L" ++ toString s)) := by
  unfold buildGitHubUrl
  dsimp only
  rw [pathRelative_under ri.rootPath rel hroot hrel]
  cases el with
  | none => rfl
  | some e =>
    have he : 1 ≤ e := hel e rfl
    dsimp only [Option.elim]
    by_cases hes : e = s
    · rw [if_neg (fun hand => hand.2 hes), if_neg (fun hne : ¬ e = s => hne hes)]
    · rw [if_pos ⟨by omega, hes⟩, if_pos hes]

/-- Witness for C1 at the spec's end-to-end scenarios: cursor at line 10,
and a selection from line 5 to line 8, in `/repo/src/file.ts` of a
repository rooted at `/repo`. -/
theorem claim_C1_witness :
    buildGitHubUrl ⟨"https://github.com/acme/widget", "feature", "/repo"⟩
        (some ("/repo" ++ "/" ++ "src/file.ts")) 10 none =
      some "https://github.com/acme/widget/blob/feature/src/file.ts#L10" ∧
    buildGitHubUrl ⟨"https://github.com/acme/widget", "feature", "/repo"⟩
        (some ("/repo" ++ "/" ++ "src/file.ts")) 5 (some 8) =
      some "https://github.com/acme/widget/blob/feature/src/file.ts#L5-L8" := by
  constructor
  · rw [claim_C1_build_url ⟨"https://github.com/acme/widget", "feature", "/repo"⟩
      "src/file.ts" 10 none (by decide) (by decide) (fun e h => by cases h)]
    decide
  · rw [claim_C1_build_url ⟨"https://github.com/acme/widget", "feature", "/repo"⟩
      "src/file.ts" 5 (some 8) (by decide) (by decide)
      (fun e h => by cases h; decide)]
    decide

/-- C3: `git@github.com:owner/repo.git` and `https://github.com/owner/repo.git`
both normalize to exactly `https://github.com/owner/repo`, while the
non-GitHub remote `https://gitlab.com/owner/repo.git` normalizes to an
absent result. -/
theorem claim_C3_normalize_examples :
    normalizeGitHubUrl "git@github.com:owner/repo.git" = some "https://github.com/owner/repo" ∧
    normalizeGitHubUrl "https://github.com/owner/repo.git" = some "https://github.com/owner/repo" ∧
    normalizeGitHubUrl "https://gitlab.com/owner/repo.git" = none := by
  refine ⟨by decide, by decide, by decide⟩

/-- C5: when the repository has commits (`git rev-parse HEAD` succeeds) and
the abbreviated ref query returns the literal `"HEAD"`, branch resolution
returns the full commit hash from the commit-hash query. -/
theorem claim_C5_detached_head (env : GitEnv) (hash : String)
    (hok : env.revParseHead = .ok hash)
    (habbrev : env.revParseAbbrevRefHead = .ok "HEAD") :
    getCurrentBranch env = some hash := by
  unfold getCurrentBranch
  rw [hok, habbrev]
  simp

/-- Witness for C5 at a concrete detached-HEAD environment. -/
theorem claim_C5_witness :
    getCurrentBranch ⟨.ok "/repo", .ok "x", .ok "deadbeef", .ok "HEAD", .error "e"⟩ =
      some "deadbeef" :=
  claim_C5_detached_head _ "deadbeef" rfl rfl

/-- C6: when the commit query fails (no commits yet), branch resolution
returns the symbolic ref's short name, and when that also fails it returns
the literal `"main"`. -/
theorem claim_C6_no_commits (env : GitEnv) (msg : String)
    (hfail : env.revParseHead = .error msg) :
    (∀ s, env.symbolicRefShortHead = .ok s → getCurrentBranch env = some s) ∧
    (∀ msg2, env.symbolicRefShortHead = .error msg2 → getCurrentBranch env = some "main") := by
  constructor
  · intro s hs
    unfold getCurrentBranch
    rw [hfail, hs]
  · intro msg2 hs
    unfold getCurrentBranch
    rw [hfail, hs]

/-- Witness for C6: symbolic ref available in one environment, unavailable
in another. -/
theorem claim_C6_witness :
    getCurrentBranch ⟨.ok "/r", .ok "x", .error "no commits", .error "n", .ok "master"⟩ =
      some "master" ∧
    getCurrentBranch ⟨.ok "/r", .ok "x", .error "no commits", .error "n", .error "n2"⟩ =
      some "main" :=
  ⟨(claim_C6_no_commits _ "no commits" rfl).1 "master" rfl,
   (claim_C6_no_commits _ "no commits" rfl).2 "n2" rfl⟩

/-- C7: with a null (invalid) file path, `buildGitHubUrl` returns an absent
result for every repository and line range; being a total Lean function it
propagates no exception. -/
theorem claim_C7_null_path (repoInfo : RepoInfo) (s : Int) (e : Option Int) :
    buildGitHubUrl repoInfo none s e = none := rfl

/-- C10: an end line equal to `0` is falsy, so the builder produces the
single-point anchor `#L<start>` exactly as when the end line is omitted,
even though `0` differs from the (1-based) start line. -/
theorem claim_C10_zero_end_line (repoInfo : RepoInfo) (fp : String) (s : Int) :
    buildGitHubUrl repoInfo (some fp) s (some 0) =
      buildGitHubUrl repoInfo (some fp) s none ∧
    buildGitHubUrl repoInfo (some fp) s (some 0) =
      some (repoInfo.remoteUrl ++ "/blob/" ++ repoInfo.branch ++ "/" ++
        String.mk ((pathRelative repoInfo.rootPath fp).data.map
          (fun c => if c = '\\' then '/' else c)) ++ "#L" ++ toString s) := by
  constructor <;> simp [buildGitHubUrl]

/-- Counterexample to C2 as stated: the remote URL
`https://notgithub.com/owner/repo.git` has host `notgithub.com`, which is
not `github.com`, yet normalization accepts it (the code only tests for the
substring `github.com`) and the resolver produces a `RepoInfo` instead of
failing. -/
theorem claim_C2_counterexample :
    urlHost "https://notgithub.com/owner/repo.git" = "notgithub.com" ∧
    "notgithub.com" ≠ "github.com" ∧
    normalizeGitHubUrl "https://notgithub.com/owner/repo.git" =
      some "https://notgithub.com/owner/repo" ∧
    getRepoInfo ⟨.ok "/repo", .ok "https://notgithub.com/owner/repo.git",
        .ok "abc", .ok "main", .error "e"⟩ =
      some ⟨"https://notgithub.com/owner/repo", "main", "/repo"⟩ := by
  refine ⟨by decide, by decide, by decide, by decide⟩

/-- C2 (amended): a configured origin remote URL that neither starts with
`git@github.com:` nor contains the substring `github.com` is treated as
absent, so the resolver fails rather than producing a `RepoInfo`.  (A
non-GitHub host whose URL happens to contain `github.com` as a substring is
accepted, see the counterexample.) -/
theorem claim_C2_amended (env : GitEnv) (raw : String)
    (hraw : env.configGetRemoteOriginUrl = .ok raw)
    (h1 : ¬ "git@github.com:".data <+: raw.data)
    (h2 : ¬ "github.com".data <:+: raw.data) :
    getRemoteUrl env = none ∧ getRepoInfo env = none := by
  have hn : normalizeGitHubUrl raw = none := by
    unfold normalizeGitHubUrl
    rw [if_neg h1, if_neg h2]
  have hr : getRemoteUrl env = none := by
    unfold getRemoteUrl
    rw [hraw]
    exact hn
  refine ⟨hr, ?_⟩
  unfold getRepoInfo
  cases hgr : getGitRootPath env with
  | none => rfl
  | some rootPath =>
    dsimp only
    split
    · rfl
    · rw [hr]

/-- Witness for the amended C2 at the gitlab remote. -/
theorem claim_C2_witness :
    getRemoteUrl ⟨.ok "/repo", .ok "https://gitlab.com/owner/repo.git",
        .ok "abc", .ok "main", .error "e"⟩ = none ∧
    getRepoInfo ⟨.ok "/repo", .ok "https://gitlab.com/owner/repo.git",
        .ok "abc", .ok "main", .error "e"⟩ = none :=
  claim_C2_amended _ "https://gitlab.com/owner/repo.git" rfl (by decide) (by decide)

/-- Counterexample to C8 as stated: the handler reads the editor state
before entering its `try` block, so an exception raised by the
`editor.document.uri.fsPath` read escapes the handler instead of being
caught and surfaced. -/
theorem claim_C8_counterexample :
    openInGithubHandler
      { editor := some { fsPath := .error "boom", selection := .ok ⟨0, 0, true⟩ },
        git := ⟨.ok "/repo", .ok "git@github.com:o/r.git", .ok "abc", .ok "main", .error "e"⟩,
        openExternal := fun _ => .ok () } = .escaped "boom" := rfl

/-- C8 (amended): once the editor-state reads (file path and selection)
succeed, no exception escapes the handler: failures of repository
resolution and URL building are surfaced as specific error messages and an
exception thrown while opening the URL is caught by the top-level `catch`
and surfaced as `Error: <description>`.  Exceptions raised while reading
the editor state itself, however, occur before the `try` block and escape
(see the counterexample). -/
theorem claim_C8_amended (host : HostEnv) (ed : EditorState) (fp : String) (sel : Selection)
    (hed : host.editor = some ed) (hfp : ed.fsPath = .ok fp) (hsel : ed.selection = .ok sel) :
    (openInGithubHandler host).isEscaped = false := by
  unfold openInGithubHandler
  simp only [hed, hfp, hsel]
  cases hri : getRepoInfo host.git with
  | none => rfl
  | some ri =>
    dsimp only
    by_cases hc : sel.isEmptySel = false ∧ sel.startLine + 1 ≠ sel.endLine + 1
    · rw [if_pos hc]
      obtain ⟨u, hu⟩ := Option.isSome_iff_exists.mp
        (buildGitHubUrl_isSome ri fp (sel.startLine + 1) (some (sel.endLine + 1)))
      rw [hu]
      cases ho : host.openExternal u <;> simp [ho, HandlerOutcome.isEscaped]
    · rw [if_neg hc]
      obtain ⟨u, hu⟩ := Option.isSome_iff_exists.mp
        (buildGitHubUrl_isSome ri fp (sel.startLine + 1) none)
      rw [hu]
      cases ho : host.openExternal u <;> simp [ho, HandlerOutcome.isEscaped]

/-- Witness for the amended C8 at a fully successful host environment. -/
theorem claim_C8_witness :
    (openInGithubHandler
      { editor := some { fsPath := .ok "/repo/src/file.ts", selection := .ok ⟨4, 7, false⟩ },
        git := ⟨.ok "/repo", .ok "git@github.com:acme/widget.git", .ok "abc", .ok "feature", .error "e"⟩,
        openExternal := fun _ => .ok () }).isEscaped = false :=
  claim_C8_amended _ _ "/repo/src/file.ts" ⟨4, 7, false⟩ rfl rfl rfl

/-- C4 (amended): the canonical-origin invariant holds for well-formed
remotes: when the configured origin URL has one of the canonical forms
`git@github.com:<p>`, `git@github.com:<p>.git`, `https://github.com/<p>`
or `https://github.com/<p>.git` — with `<p>` nonempty, not ending in
`.git` and not ending in a slash — every `RepoInfo` the resolver returns
has `remoteUrl = https://github.com/<p>`, which starts with
`https://github.com/` and ends with neither `.git` nor a slash.  (For
other origin URLs containing `github.com` the invariant can fail, see the
counterexample.) -/
theorem claim_C4_amended (env : GitEnv) (ri : RepoInfo) (p raw : String)
    (hinfo : getRepoInfo env = some ri)
    (hraw : env.configGetRemoteOriginUrl = .ok raw)
    (hforms : raw = "git@github.com:" ++ p ∨ raw = "git@github.com:" ++ p ++ ".git" ∨
      raw = "https://github.com/" ++ p ∨ raw = "https://github.com/" ++ p ++ ".git")
    (hp0 : p ≠ "")
    (hpg : ¬ ".git".data <:+ p.data)
    (hps : p.data.getLast? ≠ some '/') :
    ri.remoteUrl = "https://github.com/" ++ p ∧
    "https://github.com/".data <+: ri.remoteUrl.data ∧
    ¬ ".git".data <:+ ri.remoteUrl.data ∧
    ri.remoteUrl.data.getLast? ≠ some '/' := by
  have hnorm : normalizeGitHubUrl raw = some ri.remoteUrl := by
    have h2 := getRepoInfo_remoteUrl env ri hinfo
    unfold getRemoteUrl at h2
    rw [hraw] at h2
    exact h2
  have hcan := normalizeGitHubUrl_canonical p hpg
  have hre : ri.remoteUrl = "https://github.com/" ++ p := by
    rcases hforms with hf | hf | hf | hf
    · rw [hf] at hnorm
      exact (Option.some.inj (hcan.1.symm.trans hnorm)).symm
    · rw [hf] at hnorm
      exact (Option.some.inj (hcan.2.1.symm.trans hnorm)).symm
    · rw [hf] at hnorm
      exact (Option.some.inj (hcan.2.2.1.symm.trans hnorm)).symm
    · rw [hf] at hnorm
      exact (Option.some.inj (hcan.2.2.2.symm.trans hnorm)).symm
  refine ⟨hre, ?_, ?_, ?_⟩
  · rw [hre, String.data_append]
    exact ⟨p.data, rfl⟩
  · rw [hre, String.data_append]
    exact not_git_suffix _ hpg
  · rw [hre, String.data_append]
    have hpd : p.data ≠ [] := fun hnil => hp0 (congrArg String.mk hnil)
    obtain ⟨c, hc⟩ := Option.isSome_iff_exists.mp (List.getLast?_isSome.mpr hpd)
    rw [List.getLast?_append, hc]
    exact fun hx => hps (hc.trans hx)

/-- Witness for the amended C4 at the SSH remote
`git@github.com:owner/repo.git`. -/
theorem claim_C4_witness :
    ("https://github.com/owner/repo" : String) = "https://github.com/" ++ "owner/repo" ∧
    "https://github.com/".data <+: ("https://github.com/owner/repo" : String).data ∧
    ¬ ".git".data <:+ ("https://github.com/owner/repo" : String).data ∧
    ("https://github.com/owner/repo" : String).data.getLast? ≠ some '/' :=
  claim_C4_amended
    ⟨.ok "/repo", .ok "git@github.com:owner/repo.git", .ok "abc", .ok "main", .error "e"⟩
    ⟨"https://github.com/owner/repo", "main", "/repo"⟩ "owner/repo"
    "git@github.com:owner/repo.git" (by decide) rfl (Or.inr (Or.inl (by decide)))
    (by decide) (by decide) (by decide)

/-- Counterexample to C9 as stated: normalization of
`https://github.com/o/r.git.git` succeeds with output
`https://github.com/o/r.git`, but normalizing that output strips another
`.git` instead of returning it unchanged. -/
theorem claim_C9_counterexample :
    normalizeGitHubUrl "https://github.com/o/r.git.git" = some "https://github.com/o/r.git" ∧
    normalizeGitHubUrl "https://github.com/o/r.git" = some "https://github.com/o/r" ∧
    normalizeGitHubUrl "https://github.com/o/r.git" ≠ some "https://github.com/o/r.git" := by
  refine ⟨by decide, by decide, by decide⟩

/-- C9 (amended): remote normalization is idempotent on every successful
output that does not itself end in `.git`: if normalizing `u` yields `r`
and `r` does not end in `.git`, then normalizing `r` yields `r` again.
(A doubled `.git` suffix in the input produces an output ending in `.git`
that normalizes further, see the counterexample.) -/
theorem claim_C9_amended (u r : String)
    (h : normalizeGitHubUrl u = some r)
    (hgit : ¬ ".git".data <:+ r.data) :
    normalizeGitHubUrl r = some r := by
  unfold normalizeGitHubUrl at h
  by_cases h1 : "git@github.com:".data <+: u.data
  · rw [if_pos h1] at h
    dsimp only at h
    have h' := Option.some.inj h
    have hrdata := congrArg String.data h'
    rw [String.data_append] at hrdata
    unfold normalizeGitHubUrl
    rw [if_neg (by rw [← hrdata]; exact not_ssh_start_https _)]
    rw [if_pos (by rw [← hrdata]; exact infix_github_https _)]
    rw [if_neg hgit]
  · rw [if_neg h1] at h
    by_cases h2 : "github.com".data <:+: u.data
    · rw [if_pos h2] at h
      have h' := Option.some.inj h
      by_cases h3 : ".git".data <:+ u.data
      · rw [if_pos h3] at h'
        have hrdata : r.data = u.data.take (u.data.length - 4) := by rw [← h']
        have hpre : r.data <+: u.data := by
          rw [hrdata]
          exact List.take_prefix _ _
        have hssh : ¬ "git@github.com:".data <+: r.data := fun hx => h1 (hx.trans hpre)
        have hyd : r.data ++ ".git".data = u.data := by
          obtain ⟨w, hw⟩ := h3
          rw [hrdata, ← hw, List.length_append,
            show (".git".data).length = 4 from rfl, Nat.add_sub_cancel, List.take_left]
        have hinf : "github.com".data <:+: r.data := infix_github_take u.data r.data hyd h2
        unfold normalizeGitHubUrl
        rw [if_neg hssh, if_pos hinf, if_neg hgit]
      · rw [if_neg h3] at h'
        subst h'
        unfold normalizeGitHubUrl
        rw [if_neg h1, if_pos h2, if_neg hgit]
    · rw [if_neg h2] at h
      exact absurd h (by simp)

/-- Witness for the amended C9: the output of normalizing
`https://github.com/owner/repo.git` is a fixed point of normalization. -/
theorem claim_C9_witness :
    normalizeGitHubUrl "https://github.com/owner/repo" =
      some "https://github.com/owner/repo" :=
  claim_C9_amended "https://github.com/owner/repo.git" "https://github.com/owner/repo"
    (by decide) (by decide)

/-- Counterexample to C4 as stated: with origin remote
`https://github.com/owner/repo/` the resolver returns a `RepoInfo` whose
`remoteUrl` keeps the trailing slash — the code only strips a trailing
`.git` and never removes a trailing `/`. -/
theorem claim_C4_counterexample :
    getRepoInfo ⟨.ok "/repo", .ok "https://github.com/owner/repo/",
        .ok "abc", .ok "main", .error "e"⟩ =
      some ⟨"https://github.com/owner/repo/", "main", "/repo"⟩ ∧
    ("https://github.com/owner/repo/").data.getLast? = some '/' := by
  refine ⟨by decide, by decide⟩

end OIG
